import Mathlib

/-!
Verification of the Stream Deck device transport layer
(`crates/device/src/stream_deck.rs`): binary report codec, candidate
resolution, discovery dedup and the session's report/command handling,
shallowly embedded as executable Lean definitions.
-/

/-- Addressable physical control (`ControlId` in the device crate). -/
inductive ControlId where
  | key (i : Nat)
  | dial (i : Nat)
  | touchStrip
deriving DecidableEq, Repr

/-- Kind of an observed control transition (`ControlEventKind`). -/
inductive ControlEventKind where
  | down
  | up
  | rotate (delta : Int)
  | tap (x : Nat)
  | drag (delta_x : Int)
deriving DecidableEq, Repr

/-- One observed transition (`ControlEvent`). -/
structure ControlEvent where
  control : ControlId
  kind : ControlEventKind
deriving DecidableEq, Repr

/-- Session-to-consumer message (`DeviceEvent`). -/
inductive DeviceEvent where
  | control (e : ControlEvent)
  | disconnected
deriving DecidableEq, Repr

/-- Bytewise check that `needle` begins `hay` (`starts_with` on byte/char slices). -/
def leadsWith : List Char → List Char → Bool
  | [], _ => true
  | _ :: _, [] => false
  | a :: as, b :: bs => a == b && leadsWith as bs

/-- Substring containment on char lists (Rust `str::contains`). -/
def containsSub (hay needle : List Char) : Bool :=
  leadsWith needle hay ||
    match hay with
    | [] => false
    | _ :: t => containsSub t needle

/-- ASCII lowercasing of a char list (`to_ascii_lowercase`). -/
def toLowerList (s : List Char) : List Char := s.map Char.toLower

/-- Brightness feature report (`set_brightness_v1`): 17 bytes,
`[0x05, 0x55, percent.min(100), 0, ...]`. -/
def set_brightness_v1 (percent : Nat) : List Nat :=
  (((List.replicate 17 0).set 0 0x05).set 1 0x55).set 2 (min percent 100)

/-- Key-state report decoder (`parse_key_states_v1`): first byte must be the
report id `0x01` and the report must hold at least `1 + key_count` bytes;
the payload is one boolean byte per key. -/
def parse_key_states_v1 (report : List Nat) (key_count : Nat) : Option (List Bool) :=
  match report with
  | [] => none
  | b :: _ =>
    if b ≠ 0x01 then none
    else if report.length < 1 + key_count then none
    else some (((report.drop 1).take key_count).map (fun x => decide (x ≠ 0)))

/-- Key-state decoder as worded by the spec, for refinement against
`parse_key_states_v1`: the decoder succeeds exactly when the first byte is the
report id 0x01 and the length is at least `1 + key_count`, yielding the
`key_count` boolean bytes. -/
def parseKeyStatesSpec (report : List Nat) (key_count : Nat) : Option (List Bool) :=
  if report.head? = some 0x01 ∧ 1 + key_count ≤ report.length then
    some (((report.drop 1).take key_count).map (fun x => decide (x ≠ 0)))
  else none

/-- One emitted chunk of the key-image upload protocol: the header fields and
payload slice of one 1024-byte output report built by `set_key_image_v1_jpeg`. -/
structure Chunk where
  key : Nat
  is_last : Bool
  page : Nat
  len : Nat
  payload : List Nat
deriving DecidableEq, Repr

/-- Chunking loop of `set_key_image_v1_jpeg`: while bytes remain, take up to
1016 bytes, mark the chunk last when it exhausts the buffer, and advance the
wrapping 16-bit page counter. -/
def chunkGo (key : Nat) (page : Nat) (jpeg : List Nat) : List Chunk :=
  if h : jpeg = [] then []
  else
    let tk := min jpeg.length 1016
    { key := key % 256
      is_last := decide (jpeg.length ≤ tk)
      page := page % 65536
      len := tk
      payload := jpeg.take tk } ::
      chunkGo key (page + 1) (jpeg.drop tk)
termination_by jpeg.length
decreasing_by
  simp only [List.length_drop]
  have h1 : 1 ≤ jpeg.length := by
    cases jpeg with
    | nil => exact absurd rfl h
    | cons a t => exact Nat.succ_le_succ (Nat.zero_le _)
  omega

/-- Key-image upload encoder entry point: chunk stream starting at page 0. -/
def setKeyImageChunks (key : Nat) (jpeg : List Nat) : List Chunk :=
  chunkGo key 0 jpeg

/-- Serialization of one chunk into its 1024-byte output report
(`set_key_image_v1_jpeg` report layout): 8-byte header
`[0x02, 0x01, key, is_last, page_lo, page_hi, len_lo, len_hi]`, then the
payload, zero-padded to 1024 bytes. -/
def chunkReport (c : Chunk) : List Nat :=
  [0x02, 0x01, c.key, if c.is_last then 1 else 0,
   c.page % 256, c.page / 256, c.len % 256, c.len / 256] ++
    c.payload ++ List.replicate (1016 - c.payload.length) 0

/-- Full key-image upload (`set_key_image_v1_jpeg`): the sequence of raw
1024-byte output reports written to the device. -/
def set_key_image_v1_jpeg (key : Nat) (jpeg : List Nat) : List (List Nat) :=
  (setKeyImageChunks key jpeg).map chunkReport

/-- Elgato vendor id constant (`ELGATO_VENDOR_ID`). -/
def ELGATO_VENDOR_ID : Nat := 0x0fd9

/-- Known product id allow-list (`KNOWN_STREAMDECK_PRODUCT_IDS`). -/
def KNOWN_STREAMDECK_PRODUCT_IDS : List Nat := [0x0060, 0x0063, 0x006c, 0x0080]

/-- Raw HID interface descriptor as returned by enumeration
(`HidDiscoveredDevice` in the transport crate). -/
structure HidDiscoveredDevice where
  vendor_id : Nat
  product_id : Nat
  serial_number : Option (List Char)
  product_string : Option (List Char)
  interface_number : Option Int
  path : List Nat
deriving DecidableEq, Repr

/-- Device recognition filter (`looks_like_stream_deck`): Elgato vendor id and
either a known product id or a product string containing "stream deck". -/
def looks_like_stream_deck (d : HidDiscoveredDevice) : Bool :=
  d.vendor_id == ELGATO_VENDOR_ID &&
    (KNOWN_STREAMDECK_PRODUCT_IDS.contains d.product_id ||
      containsSub (toLowerList (d.product_string.getD [])) "stream deck".toList)

/-- One hex digit, lowercase (`format!` `{:x}` digit). -/
def hexDigit (n : Nat) : Char :=
  if n < 10 then Char.ofNat (48 + n) else Char.ofNat (87 + n)

/-- Four-digit lowercase hex rendering of a 16-bit value (`{:04x}`). -/
def hex4 (n : Nat) : List Char :=
  [hexDigit (n / 4096 % 16), hexDigit (n / 256 % 16), hexDigit (n / 16 % 16), hexDigit (n % 16)]

/-- Fallback display name built in `list_devices` when the descriptor carries
no product string: `Stream Deck (vvvv:pppp)`. -/
def fallbackName (vendor_id product_id : Nat) : List Char :=
  "Stream Deck (".toList ++ hex4 vendor_id ++ ":".toList ++ hex4 product_id ++ ")".toList

/-- Entry of an enumeration result (`DiscoveredDevice`). The id is the output
of the stable identity hash. -/
structure DiscoveredDevice where
  id : Nat
  display_name : List Char
deriving DecidableEq, Repr

/-- Stable identity of a descriptor (`stable_device_id`): the identity hash —
built in the source on the standard library hasher, which the claims never
inspect — is passed in as an uninterpreted function of
(vendor_id, product_id, serial). -/
def deviceIdOf (hash : Nat → Nat → Option (List Char) → Nat)
    (d : HidDiscoveredDevice) : Nat :=
  hash d.vendor_id d.product_id d.serial_number

/-- One loop step of `list_devices`: skip non-matching descriptors, compute the
stable id, and push a row only when no row with that id exists yet. -/
def listDevicesStep (hash : Nat → Nat → Option (List Char) → Nat)
    (out : List DiscoveredDevice) (d : HidDiscoveredDevice) : List DiscoveredDevice :=
  if !looks_like_stream_deck d then out
  else
    let id := deviceIdOf hash d
    let name := d.product_string.getD (fallbackName d.vendor_id d.product_id)
    if out.any (fun x => x.id == id) then out
    else out ++ [⟨id, name⟩]

/-- Discovery (`list_devices`): fold the step over all enumerated descriptors. -/
def list_devices (hash : Nat → Nat → Option (List Char) → Nat)
    (ds : List HidDiscoveredDevice) : List DiscoveredDevice :=
  ds.foldl (listDevicesStep hash) []

/-- One raw HID interface belonging to a device (`Candidate` in `connect`). -/
structure Candidate where
  id : Nat
  name : List Char
  product_id : Nat
  interface_number : Option Int
  path : List Nat
deriving DecidableEq, Repr

/-- Sort key used by `connect`: the interface number, with `None` sorted last
(`interface_number.unwrap_or(999)`). -/
def candSortKey (c : Candidate) : Int := c.interface_number.getD 999

instance candSortRelDec : DecidableRel (fun a b : Candidate => candSortKey a ≤ candSortKey b) :=
  fun a b => Int.decLe (candSortKey a) (candSortKey b)

/-- Stable sort of the candidate set by interface number
(`candidates.sort_by_key`), modelled by insertion sort (stable, like Rust's
`sort_by_key`). -/
def sortCandidates (l : List Candidate) : List Candidate :=
  List.insertionSort (fun a b => candSortKey a ≤ candSortKey b) l

/-- Write-path selection in `connect`: the candidate with interface number 0,
else the first candidate of the sorted set. -/
def selectWritePath (sorted : List Candidate) : Option (List Nat) :=
  (((sorted.find? fun c => decide (c.interface_number = some 0)).orElse
    (fun _ => sorted.head?))).map Candidate.path

/-- Read-path selection in `connect`: the candidate with interface number 1,
else the last candidate of the sorted set. -/
def selectReadPath (sorted : List Candidate) : Option (List Nat) :=
  (((sorted.find? fun c => decide (c.interface_number = some 1)).orElse
    (fun _ => sorted.getLast?))).map Candidate.path

/-- Candidate role resolution in `connect`: fail on an empty candidate set
("device not found"), else sort and pick (write_path, read_path). -/
def connectPaths (candidates : List Candidate) : Option (List Nat × List Nat) :=
  if candidates = [] then none
  else
    let sorted := sortCandidates candidates
    match selectWritePath sorted, selectReadPath sorted with
    | some w, some r => some (w, r)
    | _, _ => none

/-- Plus-variant name heuristic in `connect`: the lowercased product string
contains "plus" or "stream deck +". -/
def isPlusName (name : List Char) : Bool :=
  containsSub (toLowerList name) "plus".toList ||
    containsSub (toLowerList name) "stream deck +".toList

/-- Key-count derivation in `connect`: `match product_id` with arms for the
Mini (6) and XL (32); every other product id falls to the plus-name heuristic
(8 keys) or the 15-key default. -/
def keyCountFor (product_id : Nat) (is_plus : Bool) : Nat :=
  if product_id = 0x0063 then 6
  else if product_id = 0x006c then 32
  else if is_plus then 8 else 15

/-- Key count as computed at connect time from product id and product name. -/
def connectKeyCount (product_id : Nat) (name : List Char) : Nat :=
  keyCountFor product_id (isPlusName name)

/-- Whether a product id is on the known allow-list. -/
def recognizedPid (product_id : Nat) : Bool :=
  KNOWN_STREAMDECK_PRODUCT_IDS.contains product_id

/-- Event value emitted for key index `i` (the code casts the running index
`i as u8`, hence the modulus) with polarity taken from the new state. -/
def keyEv (i : Nat) (now : Bool) : DeviceEvent :=
  DeviceEvent.control ⟨ControlId.key (i % 256), if now then .down else .up⟩

/-- Event list built by `emit_key_events`: one Down/Up event per index where
the previous and current key states differ. -/
def emitKeyEventsList (last current : List Bool) : List DeviceEvent :=
  (last.zip current).enum.filterMap fun p =>
    if p.2.1 = p.2.2 then none else some (keyEv p.1 p.2.2)

/-- Transition emission (`emit_key_events`): emit the diff events and overwrite
the snapshot with the current states. `copy_from_slice` panics when the lengths
differ, modelled as `none`; the session always passes equal lengths. -/
def emitKeyEvents (last current : List Bool) : Option (List DeviceEvent × List Bool) :=
  if last.length = current.length then some (emitKeyEventsList last current, current)
  else none

/-- Number of indices at which two boolean vectors differ. -/
def hammingDistB (a b : List Bool) : Nat :=
  ((a.zip b).filter fun p => decide (p.1 ≠ p.2)).length

/-- Rust `byte as i8 as i32` reinterpretation of a byte as a signed value. -/
def i8ToInt (b : Nat) : Int :=
  if b % 256 < 128 then (b % 256 : Nat) else (b % 256 : Nat) - 256

/-- Little-endian unsigned 16-bit value from two bytes (`u16::from_le_bytes`). -/
def u16le (lo hi : Nat) : Nat := lo % 256 + 256 * (hi % 256)

/-- Little-endian signed 16-bit value from two bytes (`i16::from_le_bytes`). -/
def i16le (lo hi : Nat) : Int :=
  if u16le lo hi < 32768 then (u16le lo hi : Nat) else (u16le lo hi : Nat) - 65536

/-- One iteration of the dial-diff loop in the id-0x01 branch of
`emit_plus_events`: byte `9 + i` is the dial-down state of dial `i`; on a
change, update the snapshot and emit a Down/Up event. -/
def dialDiffStep (report : List Nat) (acc : List Bool × List DeviceEvent) (i : Nat) :
    List Bool × List DeviceEvent :=
  let now := decide (report.getD (9 + i) 0 ≠ 0)
  if acc.1.getD i false = now then acc
  else
    (acc.1.set i now,
     acc.2 ++ [DeviceEvent.control ⟨ControlId.dial i, if now then .down else .up⟩])

/-- Best-effort enhanced-device decoder (`emit_plus_events`): returns the
updated dial-down snapshot and the emitted events.
Branches by report id: 0x01 (extended key report with 4 trailing dial bytes,
needing at least 13 bytes), 0x03 (dial rotation), 0x04 (touch strip tap),
0x05 (touch strip drag); anything else is dropped. -/
def emit_plus_events (report : List Nat) (last_dials_down : List Bool) :
    List Bool × List DeviceEvent :=
  match report with
  | [] => (last_dials_down, [])
  | b0 :: rest =>
    if b0 = 0x01 then
      if report.length < 1 + 8 + 4 then (last_dials_down, [])
      else [0, 1, 2, 3].foldl (dialDiffStep report) (last_dials_down, [])
    else if b0 = 0x03 ∧ 3 ≤ report.length then
      let dial := min (rest.getD 0 0) 3
      let delta := i8ToInt (rest.getD 1 0)
      if delta ≠ 0 then
        (last_dials_down,
         [DeviceEvent.control ⟨ControlId.dial dial, .rotate delta⟩])
      else (last_dials_down, [])
    else if b0 = 0x04 ∧ 3 ≤ report.length then
      (last_dials_down,
       [DeviceEvent.control ⟨ControlId.touchStrip, .tap (u16le (rest.getD 0 0) (rest.getD 1 0))⟩])
    else if b0 = 0x05 ∧ 3 ≤ report.length then
      let dx := i16le (rest.getD 0 0) (rest.getD 1 0)
      if dx ≠ 0 then
        (last_dials_down,
         [DeviceEvent.control ⟨ControlId.touchStrip, .drag dx⟩])
      else (last_dials_down, [])
    else (last_dials_down, [])

/-- Mutable per-session decoder state: the previous key snapshot (`last_keys`)
and the previous dial-down snapshot (`last_dials_down`). -/
structure SessionState where
  last_keys : List Bool
  last_dials_down : List Bool
deriving DecidableEq, Repr

/-- Input-report dispatch of the session loop (`run_stream_deck_thread`):
first try `parse_key_states_v1`; on success run `emit_key_events`, otherwise
run `emit_plus_events` when the device is a plus variant. `none` models the
(session-invariant-unreachable) length-mismatch panic inside
`emit_key_events`. -/
def processReport (is_plus : Bool) (key_count : Nat) (st : SessionState)
    (report : List Nat) : Option (SessionState × List DeviceEvent) :=
  match parse_key_states_v1 report key_count with
  | some states =>
    (emitKeyEvents st.last_keys states).map fun p =>
      ({ st with last_keys := p.2 }, p.1)
  | none =>
    if is_plus then
      let p := emit_plus_events report st.last_dials_down
      some ({ st with last_dials_down := p.1 }, p.2)
    else some (st, [])

/-- A write issued to the device: a feature report (`send_feature_report`) or
an output report (`write`). -/
inductive HidWrite where
  | feature (bytes : List Nat)
  | output (bytes : List Nat)
deriving DecidableEq, Repr

/-- Consumer-to-session message (`DeviceCommand`), reply channel elided: the
reply value is returned by `handleCommand` instead. -/
inductive DeviceCommand where
  | setBrightness (percent : Nat)
  | setKeyImageJpeg (key : Nat) (jpeg : List Nat)
  | setDialImageJpeg (dial : Nat) (jpeg : List Nat)
  | setTouchStripImageJpeg (jpeg : List Nat)
deriving DecidableEq, Repr

/-- Command execution in the session loop (`run_stream_deck_thread`, command
drain): the device writes performed and the value sent on the command's reply
channel. HID writes are modelled as succeeding, so every reply is `ok` — the
code consults neither the device kind (`is_plus` is in scope but unused here)
nor the index ranges; dial images go to virtual key `8 + min(dial, 3)`
(`8u8.saturating_add(dial.min(3))`) and the touch strip image to virtual
key 12. -/
def handleCommand (is_plus : Bool) (cmd : DeviceCommand) :
    List HidWrite × Except String Unit :=
  match cmd with
  | .setBrightness percent =>
    ([HidWrite.feature (set_brightness_v1 percent)], Except.ok ())
  | .setKeyImageJpeg key jpeg =>
    ((set_key_image_v1_jpeg key jpeg).map HidWrite.output, Except.ok ())
  | .setDialImageJpeg dial jpeg =>
    let key := min (8 + min dial 3) 255
    ((set_key_image_v1_jpeg key jpeg).map HidWrite.output, Except.ok ())
  | .setTouchStripImageJpeg jpeg =>
    ((set_key_image_v1_jpeg 12 jpeg).map HidWrite.output, Except.ok ())

/-- Saturating u8 virtual-key mapping used for dial images. -/
def dialVirtualKey (dial : Nat) : Nat := min (8 + min dial 3) 255

example : emit_plus_events [1, 0, 0, 0, 0, 0, 0, 0, 0, 1, 0, 0, 0] (List.replicate 4 false) =
    ([true, false, false, false],
     [DeviceEvent.control ⟨ControlId.dial 0, .down⟩]) := by decide

/-! Theorems. -/

theorem chunkGo_eq_nil (key page : Nat) : chunkGo key page [] = [] := by
  rw [chunkGo]
  simp

theorem chunkGo_ne_nil (key page : Nat) {jpeg : List Nat} (h : jpeg ≠ []) :
    chunkGo key page jpeg ≠ [] := by
  rw [chunkGo, dif_neg h]
  exact List.cons_ne_nil _ _

theorem chunkGo_flatten (key : Nat) :
    ∀ (n : Nat) (jpeg : List Nat), jpeg.length ≤ n → ∀ page,
      ((chunkGo key page jpeg).map Chunk.payload).flatten = jpeg := by
  intro n
  induction n with
  | zero =>
    intro jpeg h page
    obtain rfl : jpeg = [] := List.eq_nil_of_length_eq_zero (Nat.le_zero.mp h)
    simp [chunkGo]
  | succ n ih =>
    intro jpeg h page
    by_cases hj : jpeg = []
    · subst hj; simp [chunkGo]
    · have hpos : 1 ≤ jpeg.length := List.length_pos.mpr hj
      rw [chunkGo, dif_neg hj]
      simp only [List.map_cons, List.flatten_cons]
      rw [ih (jpeg.drop (min jpeg.length 1016)) (by simp [List.length_drop]; omega) (page + 1)]
      exact List.take_append_drop _ jpeg

theorem chunkGo_page (key : Nat) :
    ∀ (n : Nat) (jpeg : List Nat), jpeg.length ≤ n → ∀ page k c,
      (chunkGo key page jpeg)[k]? = some c → c.page = (page + k) % 65536 := by
  intro n
  induction n with
  | zero =>
    intro jpeg h page k c hc
    obtain rfl : jpeg = [] := List.eq_nil_of_length_eq_zero (Nat.le_zero.mp h)
    rw [chunkGo_eq_nil] at hc
    simp at hc
  | succ n ih =>
    intro jpeg h page k c hc
    by_cases hj : jpeg = []
    · subst hj; rw [chunkGo_eq_nil] at hc; simp at hc
    · have hpos : 1 ≤ jpeg.length := List.length_pos.mpr hj
      rw [chunkGo, dif_neg hj] at hc
      cases k with
      | zero =>
        simp only [List.getElem?_cons_zero, Option.some.injEq] at hc
        subst hc
        simp
      | succ k =>
        simp only [List.getElem?_cons_succ] at hc
        have := ih (jpeg.drop (min jpeg.length 1016))
          (by simp [List.length_drop]; omega) (page + 1) k c hc
        rw [this]
        congr 1
        omega

theorem chunkGo_is_last_count (key : Nat) :
    ∀ (n : Nat) (jpeg : List Nat), jpeg.length ≤ n → jpeg ≠ [] → ∀ page,
      (chunkGo key page jpeg).countP (fun c => c.is_last) = 1 := by
  intro n
  induction n with
  | zero =>
    intro jpeg h hj page
    exact absurd (List.eq_nil_of_length_eq_zero (Nat.le_zero.mp h)) hj
  | succ n ih =>
    intro jpeg h hj page
    have hpos : 1 ≤ jpeg.length := List.length_pos.mpr hj
    rw [chunkGo, dif_neg hj]
    rw [List.countP_cons]
    by_cases hsmall : jpeg.length ≤ 1016
    · have htk : min jpeg.length 1016 = jpeg.length := Nat.min_eq_left hsmall
      rw [htk]
      simp [chunkGo_eq_nil]
    · have htk : min jpeg.length 1016 = 1016 := Nat.min_eq_right (by omega)
      rw [htk]
      have hrest : (jpeg.drop 1016) ≠ [] := by
        intro hnil
        have := congrArg List.length hnil
        simp [List.length_drop] at this
        omega
      rw [ih (jpeg.drop 1016) (by simp [List.length_drop]; omega) hrest (page + 1)]
      have : decide (jpeg.length ≤ 1016) = false := by simp; omega
      simp [this]

theorem chunkGo_getLast (key : Nat) :
    ∀ (n : Nat) (jpeg : List Nat), jpeg.length ≤ n → jpeg ≠ [] → ∀ page c,
      (chunkGo key page jpeg).getLast? = some c → c.is_last = true ∧ c.payload ≠ [] := by
  intro n
  induction n with
  | zero =>
    intro jpeg h hj
    exact absurd (List.eq_nil_of_length_eq_zero (Nat.le_zero.mp h)) hj
  | succ n ih =>
    intro jpeg h hj page c hc
    have hpos : 1 ≤ jpeg.length := List.length_pos.mpr hj
    rw [chunkGo, dif_neg hj] at hc
    by_cases hsmall : jpeg.length ≤ 1016
    · have htk : min jpeg.length 1016 = jpeg.length := Nat.min_eq_left hsmall
      rw [htk] at hc
      simp only [List.drop_length, chunkGo_eq_nil, List.getLast?_singleton,
        Option.some.injEq] at hc
      subst hc
      refine ⟨by simp, ?_⟩
      simpa [List.take_length] using hj
    · have htk : min jpeg.length 1016 = 1016 := Nat.min_eq_right (by omega)
      rw [htk] at hc
      have hrest : (jpeg.drop 1016) ≠ [] := by
        intro hnil
        have := congrArg List.length hnil
        simp [List.length_drop] at this
        omega
      have hrest2 : chunkGo key (page + 1) (jpeg.drop 1016) ≠ [] :=
        chunkGo_ne_nil key (page + 1) hrest
      obtain ⟨r, rs, hr⟩ := List.exists_cons_of_ne_nil hrest2
      simp only [hr, List.getLast?_cons_cons] at hc
      have := ih (jpeg.drop 1016) (by simp [List.length_drop]; omega) hrest (page + 1) c
      rw [hr] at this
      exact this hc

/-- C1 amended: concatenating the chunk payloads in emission order (the page
counter runs 0, 1, 2, ... reduced mod 2^16, so for any buffer needing at most
2^16 chunks emission order is ascending page order) reproduces the input
exactly; for a nonempty input exactly one chunk carries `is_last = true`,
namely the final chunk, whose payload is nonempty and hence holds the final
byte; for the empty input no chunk at all is emitted. -/
theorem image_chunk_encoding (key : Nat) (jpeg : List Nat) :
    ((setKeyImageChunks key jpeg).map Chunk.payload).flatten = jpeg ∧
    (∀ k c, (setKeyImageChunks key jpeg)[k]? = some c → c.page = k % 65536) ∧
    (jpeg ≠ [] →
      (setKeyImageChunks key jpeg).countP (fun c => c.is_last) = 1 ∧
      ∀ c, (setKeyImageChunks key jpeg).getLast? = some c →
        c.is_last = true ∧ c.payload ≠ []) ∧
    (jpeg = [] → setKeyImageChunks key jpeg = []) := by
  refine ⟨chunkGo_flatten key jpeg.length jpeg le_rfl 0,
    fun k c hc => by simpa using chunkGo_page key jpeg.length jpeg le_rfl 0 k c hc,
    fun hj => ⟨chunkGo_is_last_count key jpeg.length jpeg le_rfl hj 0,
      fun c hc => chunkGo_getLast key jpeg.length jpeg le_rfl hj 0 c hc⟩,
    fun hj => by subst hj; exact chunkGo_eq_nil key 0⟩

/-- C1 counterexample: the empty buffer produces no chunks at all, so no chunk
has `is_last = true` — the claim's "exactly one chunk has is_last" fails at
L = 0. -/
theorem image_chunk_empty_counterexample :
    ¬ ((setKeyImageChunks 0 []).countP (fun c => c.is_last) = 1) := by
  rw [setKeyImageChunks, chunkGo_eq_nil]
  simp

/-- C1 witness: at the concrete nonempty input `[9, 9]` exactly one chunk is
marked last. -/
theorem image_chunk_witness :
    (setKeyImageChunks 2 [9, 9]).countP (fun c => c.is_last) = 1 :=
  ((image_chunk_encoding 2 [9, 9]).2.2.1 (by decide)).1

theorem keyDiff_aux :
    ∀ (l : List (Bool × Bool)) (n : Nat),
      ((List.enumFrom n l).filterMap fun p =>
          if p.2.1 = p.2.2 then none else some (keyEv p.1 p.2.2)).length =
        (l.filter fun p => decide (p.1 ≠ p.2)).length ∧
      (∀ e ∈ (List.enumFrom n l).filterMap fun p =>
          if p.2.1 = p.2.2 then none else some (keyEv p.1 p.2.2),
        ∃ k p, l[k]? = some p ∧ p.1 ≠ p.2 ∧ e = keyEv (n + k) p.2) ∧
      (∀ k p, l[k]? = some p → p.1 ≠ p.2 →
        keyEv (n + k) p.2 ∈ (List.enumFrom n l).filterMap fun p =>
          if p.2.1 = p.2.2 then none else some (keyEv p.1 p.2.2)) := by
  intro l
  induction l with
  | nil =>
    intro n
    refine ⟨rfl, by simp, by simp⟩
  | cons a t ih =>
    intro n
    by_cases ha : a.1 = a.2
    · have hstep :
          ((List.enumFrom n (a :: t)).filterMap fun p =>
            if p.2.1 = p.2.2 then none else some (keyEv p.1 p.2.2)) =
          ((List.enumFrom (n + 1) t).filterMap fun p =>
            if p.2.1 = p.2.2 then none else some (keyEv p.1 p.2.2)) := by
        simp [List.enumFrom, List.filterMap_cons, ha]
      have hfil : ((a :: t).filter fun p => decide (p.1 ≠ p.2)) =
          (t.filter fun p => decide (p.1 ≠ p.2)) := by
        simp [List.filter_cons, ha]
      refine ⟨?_, ?_, ?_⟩
      · rw [hstep, hfil]
        exact (ih (n + 1)).1
      · intro e he
        rw [hstep] at he
        obtain ⟨k, p, hk, hp, hev⟩ := (ih (n + 1)).2.1 e he
        refine ⟨k + 1, p, by simpa using hk, hp, ?_⟩
        rw [hev]
        congr 1
        omega
      · intro k p hk hp
        cases k with
        | zero =>
          simp only [List.getElem?_cons_zero, Option.some.injEq] at hk
          subst hk
          exact absurd ha hp
        | succ k =>
          simp only [List.getElem?_cons_succ] at hk
          have := (ih (n + 1)).2.2 k p hk hp
          rw [hstep]
          have harith : n + (k + 1) = n + 1 + k := by omega
          rw [harith]
          exact this
    · have hstep :
          ((List.enumFrom n (a :: t)).filterMap fun p =>
            if p.2.1 = p.2.2 then none else some (keyEv p.1 p.2.2)) =
          keyEv n a.2 :: ((List.enumFrom (n + 1) t).filterMap fun p =>
            if p.2.1 = p.2.2 then none else some (keyEv p.1 p.2.2)) := by
        simp [List.enumFrom, List.filterMap_cons, ha]
      have hfil : ((a :: t).filter fun p => decide (p.1 ≠ p.2)) =
          a :: (t.filter fun p => decide (p.1 ≠ p.2)) := by
        simp [List.filter_cons, ha]
      refine ⟨?_, ?_, ?_⟩
      · rw [hstep, hfil]
        simp only [List.length_cons]
        rw [(ih (n + 1)).1]
      · intro e he
        rw [hstep] at he
        rcases List.mem_cons.mp he with hh | ht
        · exact ⟨0, a, by simp, ha, by simpa using hh⟩
        · obtain ⟨k, p, hk, hp, hev⟩ := (ih (n + 1)).2.1 e ht
          refine ⟨k + 1, p, by simpa using hk, hp, ?_⟩
          rw [hev]
          congr 1
          omega
      · intro k p hk hp
        rw [hstep]
        cases k with
        | zero =>
          simp only [List.getElem?_cons_zero, Option.some.injEq] at hk
          subst hk
          exact List.mem_cons_self _ _
        | succ k =>
          simp only [List.getElem?_cons_succ] at hk
          have := (ih (n + 1)).2.2 k p hk hp
          have harith : n + (k + 1) = n + 1 + k := by omega
          rw [harith]
          exact List.mem_cons_of_mem _ this

/-- C6: with equal-length previous and current snapshots, the transition step
emits a list whose length is exactly the Hamming distance between the vectors,
every emitted event stems from an index where the vectors differ and carries
Down exactly when the current value is true, every differing index contributes
its event, and the snapshot afterwards equals the current vector. -/
theorem transition_emission (prev curr : List Bool) (h : prev.length = curr.length) :
    emitKeyEvents prev curr = some (emitKeyEventsList prev curr, curr) ∧
    (emitKeyEventsList prev curr).length = hammingDistB prev curr ∧
    (∀ e ∈ emitKeyEventsList prev curr, ∃ i, i < curr.length ∧
      prev[i]? ≠ curr[i]? ∧ e = keyEv i (curr.getD i false)) ∧
    (∀ i, i < curr.length → prev[i]? ≠ curr[i]? →
      keyEv i (curr.getD i false) ∈ emitKeyEventsList prev curr) := by
  have hzip := keyDiff_aux (prev.zip curr) 0
  have hlist : emitKeyEventsList prev curr =
      ((List.enumFrom 0 (prev.zip curr)).filterMap fun p =>
        if p.2.1 = p.2.2 then none else some (keyEv p.1 p.2.2)) := rfl
  refine ⟨by simp [emitKeyEvents, h], ?_, ?_, ?_⟩
  · rw [hlist]
    exact hzip.1
  · intro e he
    rw [hlist] at he
    obtain ⟨k, p, hk, hp, hev⟩ := hzip.2.1 e he
    obtain ⟨h1, h2⟩ := List.getElem?_zip_eq_some.mp hk
    have hklt : k < curr.length := by
      rcases Nat.lt_or_ge k curr.length with hlt | hge
      · exact hlt
      · rw [List.getElem?_eq_none hge] at h2
        exact absurd h2 (by simp)
    refine ⟨k, hklt, ?_, ?_⟩
    · rw [h1, h2]
      simp only [ne_eq, Option.some.injEq]
      exact hp
    · rw [hev]
      have : curr.getD k false = p.2 := by
        rw [List.getD_eq_getElem?_getD, h2]
        rfl
      rw [this]
      congr 1
      omega
  · intro i hi hne
    have hip : i < prev.length := by omega
    have h1 : prev[i]? = some prev[i] := List.getElem?_eq_getElem hip
    have h2 : curr[i]? = some curr[i] := List.getElem?_eq_getElem hi
    have hzk : (prev.zip curr)[i]? = some (prev[i], curr[i]) :=
      List.getElem?_zip_eq_some.mpr ⟨h1, h2⟩
    have hpne : prev[i] ≠ curr[i] := by
      intro hcon
      exact hne (by rw [h1, h2, hcon])
    have := hzip.2.2 i (prev[i], curr[i]) hzk hpne
    have hgd : curr.getD i false = curr[i] := by
      rw [List.getD_eq_getElem?_getD, h2]
      rfl
    rw [hlist, hgd]
    simpa using this

/-- C6 witness: a concrete transition — key 0 goes down, key 1 stays down —
emits exactly the one event the Hamming distance predicts. -/
theorem transition_emission_witness :
    emitKeyEvents [false, true] [true, true] = some (emitKeyEventsList [false, true] [true, true], [true, true]) ∧
    (emitKeyEventsList [false, true] [true, true]).length = hammingDistB [false, true] [true, true] :=
  ⟨(transition_emission [false, true] [true, true] (by decide)).1,
   (transition_emission [false, true] [true, true] (by decide)).2.1⟩

/-- C8: for every input percent, `set_brightness_v1` builds a 17-byte feature
report with byte 0 = 0x05, byte 1 = 0x55, byte 2 = the percent clamped to
[0, 100] (so 150 encodes like 100 and any percent ≤ 100 encodes to itself),
and all remaining bytes zero. -/
theorem brightness_encode_correct (percent : Nat) :
    (set_brightness_v1 percent).length = 17 ∧
    (set_brightness_v1 percent)[0]? = some 0x05 ∧
    (set_brightness_v1 percent)[1]? = some 0x55 ∧
    (set_brightness_v1 percent)[2]? = some (min percent 100) ∧
    min percent 100 ≤ 100 ∧
    (∀ i, 3 ≤ i → i < 17 → (set_brightness_v1 percent)[i]? = some 0) ∧
    set_brightness_v1 150 = set_brightness_v1 100 ∧
    (percent ≤ 100 → (set_brightness_v1 percent)[2]? = some percent) := by
  have h : set_brightness_v1 percent =
      [0x05, 0x55, min percent 100, 0, 0, 0, 0, 0, 0, 0, 0, 0, 0, 0, 0, 0, 0] := rfl
  refine ⟨by rw [h]; rfl, by rw [h]; rfl, by rw [h]; rfl, by rw [h]; rfl,
    Nat.min_le_right percent 100, ?_, by decide, ?_⟩
  · intro i h3 h17
    rw [h]
    interval_cases i <;> rfl
  · intro hle
    rw [h]
    simp [Nat.min_eq_left hle]

/-- C8 witness: the clamp observed at the concrete inputs 150 and 100. -/
theorem brightness_encode_witness :
    (set_brightness_v1 150)[2]? = some 100 ∧ set_brightness_v1 150 = set_brightness_v1 100 := by
  obtain ⟨-, -, -, h2, -, -, h150, -⟩ := brightness_encode_correct 150
  exact ⟨by rw [h2]; norm_num, h150⟩

/-- C7: the key-state decoder returns `some` (a `key_count`-length boolean
vector, byte nonzero meaning key down) exactly when the first byte is the
report id 0x01 and the length is at least `1 + key_count`, and returns `none`
for every other shape; stated as equality with the spec-worded decoder plus
the length law. -/
theorem parse_key_states_shape (report : List Nat) (key_count : Nat) :
    parse_key_states_v1 report key_count = parseKeyStatesSpec report key_count ∧
    (∀ v, parse_key_states_v1 report key_count = some v → v.length = key_count) := by
  constructor
  · cases report with
    | nil => rfl
    | cons b t =>
      by_cases hb : b = 1
      · subst hb
        by_cases hl : (1 : Nat) + key_count ≤ t.length + 1 <;>
          simp [parse_key_states_v1, parseKeyStatesSpec, hl]
      · simp [parse_key_states_v1, parseKeyStatesSpec, hb]
  · intro v hv
    cases report with
    | nil => simp [parse_key_states_v1] at hv
    | cons b t =>
      simp only [parse_key_states_v1] at hv
      split_ifs at hv with hb hl
      obtain rfl := Option.some.inj hv
      simp only [List.length_map, List.length_take, List.length_drop, List.length_cons]
      simp only [List.length_cons, Nat.not_lt] at hl
      omega

/-- C7 witness: the two decoders agree at a concrete valid report, whose
decoded vector has the requested length. -/
theorem parse_key_states_witness :
    parse_key_states_v1 [1, 5, 0] 2 = parseKeyStatesSpec [1, 5, 0] 2 ∧
    (true :: false :: []).length = 2 :=
  ⟨(parse_key_states_shape [1, 5, 0] 2).1,
   (parse_key_states_shape [1, 5, 0] 2).2 [true, false] (by decide)⟩

/-- C10: the set-dial-image command is executed as a key-image upload to
virtual key `8 + min(dial, 3)` (always in 8..=11, out-of-range dials clamped
to dial 3), and the touch-strip image command targets virtual key 12. -/
theorem dial_touch_virtual_key (is_plus : Bool) (dial : Nat) (jpeg : List Nat) :
    handleCommand is_plus (.setDialImageJpeg dial jpeg) =
      handleCommand is_plus (.setKeyImageJpeg (8 + min dial 3) jpeg) ∧
    dialVirtualKey dial = 8 + min dial 3 ∧
    8 ≤ dialVirtualKey dial ∧ dialVirtualKey dial ≤ 11 ∧
    (3 ≤ dial → dialVirtualKey dial = 11) ∧
    handleCommand is_plus (.setTouchStripImageJpeg jpeg) =
      handleCommand is_plus (.setKeyImageJpeg 12 jpeg) := by
  have hk : min (8 + min dial 3) 255 = 8 + min dial 3 := by omega
  refine ⟨by simp only [handleCommand, hk], by simpa [dialVirtualKey] using hk,
    ?_, ?_, ?_, rfl⟩
  · simp only [dialVirtualKey]; omega
  · simp only [dialVirtualKey]; omega
  · intro h3; simp only [dialVirtualKey]; omega

/-- C10 witness: a dial index far out of range (200) is clamped to virtual
key 11. -/
theorem dial_touch_virtual_key_witness : dialVirtualKey 200 = 11 :=
  (dial_touch_virtual_key true 200 []).2.2.2.2.1 (by decide)

/-- C2 counterexample: on a non-enhanced device (`is_plus = false`), a
set-dial-image or set-touch-strip-image command is executed — device writes
are emitted — and its reply is `ok`, not a capability error. -/
theorem capability_error_counterexample :
    (handleCommand false (.setDialImageJpeg 0 [0x41])).1 ≠ [] ∧
    (handleCommand false (.setDialImageJpeg 0 [0x41])).2 = Except.ok () ∧
    (handleCommand false (.setTouchStripImageJpeg [0x41])).1 ≠ [] ∧
    (handleCommand false (.setTouchStripImageJpeg [0x41])).2 = Except.ok () := by
  refine ⟨?_, rfl, ?_, rfl⟩ <;>
    simp [handleCommand, set_key_image_v1_jpeg, setKeyImageChunks, chunkGo]

/-- C2 amended: command handling never consults the device kind — for every
command the writes and the reply are identical on enhanced and non-enhanced
devices, and (with device writes modelled as succeeding) every reply is `ok`;
no capability error exists. -/
theorem dial_commands_ignore_device_kind (is_plus : Bool) (cmd : DeviceCommand) :
    handleCommand is_plus cmd = handleCommand true cmd ∧
    (handleCommand is_plus cmd).2 = Except.ok () := by
  cases cmd <;> exact ⟨rfl, rfl⟩

/-- C5 counterexample: 0x0080 (MK.2) is on the recognized-product-id list,
yet its key count is decided by the name heuristic — a "plus" name yields 8
keys where the same product id otherwise yields 15. -/
theorem key_count_heuristic_counterexample :
    recognizedPid 0x0080 = true ∧
    connectKeyCount 0x0080 ("Stream Deck Plus".toList) = 8 ∧
    connectKeyCount 0x0080 ("Stream Deck MK.2".toList) = 15 := by decide

/-- C5 amended: the product-id lookup covers only 0x0063 (6 keys) and 0x006c
(32 keys); for every other product id — recognized (0x0060, 0x0080) or not —
the name heuristic decides between the 8-key plus layout and the 15-key
default. -/
theorem key_count_lookup_amended (product_id : Nat) (name : List Char) :
    connectKeyCount 0x0063 name = 6 ∧
    connectKeyCount 0x006c name = 32 ∧
    (product_id ≠ 0x0063 → product_id ≠ 0x006c →
      connectKeyCount product_id name = if isPlusName name then 8 else 15) := by
  refine ⟨rfl, rfl, fun h1 h2 => ?_⟩
  simp [connectKeyCount, keyCountFor, h1, h2]

/-- C5 witness: the recognized original product id 0x0060 with a non-plus name
resolves to the 15-key default through the heuristic branch. -/
theorem key_count_lookup_witness : connectKeyCount 0x0060 [] = 15 := by
  have h := (key_count_lookup_amended 0x0060 []).2.2 (by decide) (by decide)
  rw [h]; decide

theorem list_devices_fold (hash : Nat → Nat → Option (List Char) → Nat) :
    ∀ (ds : List HidDiscoveredDevice) (acc : List DiscoveredDevice),
      ((acc.map DiscoveredDevice.id).Nodup →
        ((ds.foldl (listDevicesStep hash) acc).map DiscoveredDevice.id).Nodup) ∧
      (∀ i, i ∈ acc.map DiscoveredDevice.id →
        i ∈ (ds.foldl (listDevicesStep hash) acc).map DiscoveredDevice.id) ∧
      (∀ d ∈ ds, looks_like_stream_deck d = true →
        deviceIdOf hash d ∈ (ds.foldl (listDevicesStep hash) acc).map DiscoveredDevice.id) ∧
      (∀ i, i ∈ (ds.foldl (listDevicesStep hash) acc).map DiscoveredDevice.id →
        i ∈ acc.map DiscoveredDevice.id ∨
          i ∈ (ds.filter looks_like_stream_deck).map (deviceIdOf hash)) := by
  intro ds
  induction ds with
  | nil =>
    intro acc
    exact ⟨fun h => h, fun i hi => hi, by simp, fun i hi => Or.inl hi⟩
  | cons d ds ih =>
    intro acc
    simp only [List.foldl_cons]
    by_cases hlook : looks_like_stream_deck d = true
    · by_cases hdup : acc.any (fun x => x.id == deviceIdOf hash d) = true
      · have hstep : listDevicesStep hash acc d = acc := by
          simp only [listDevicesStep, hlook, hdup]
          simp
        rw [hstep]
        have hmem : deviceIdOf hash d ∈ acc.map DiscoveredDevice.id := by
          obtain ⟨x, hx, hxid⟩ := List.any_eq_true.mp hdup
          have : x.id = deviceIdOf hash d := by simpa using hxid
          exact this ▸ List.mem_map_of_mem DiscoveredDevice.id hx
        refine ⟨(ih acc).1, (ih acc).2.1, ?_, ?_⟩
        · intro d' hd' hd'look
          rcases List.mem_cons.mp hd' with rfl | hmem'
          · exact (ih acc).2.1 _ hmem
          · exact (ih acc).2.2.1 d' hmem' hd'look
        · intro i hi
          rcases (ih acc).2.2.2 i hi with hacc | hds
          · exact Or.inl hacc
          · refine Or.inr ?_
            simp only [List.filter_cons, hlook, List.map_cons]
            exact List.mem_cons_of_mem _ hds
      · have hstep : listDevicesStep hash acc d =
            acc ++ [⟨deviceIdOf hash d,
              d.product_string.getD (fallbackName d.vendor_id d.product_id)⟩] := by
          simp only [listDevicesStep, hlook, hdup]
          simp
        rw [hstep]
        have hnotmem : deviceIdOf hash d ∉ acc.map DiscoveredDevice.id := by
          intro hmem
          obtain ⟨x, hx, hxid⟩ := List.mem_map.mp hmem
          exact hdup (List.any_eq_true.mpr ⟨x, hx, by simp [hxid]⟩)
        set row : DiscoveredDevice :=
          ⟨deviceIdOf hash d,
            d.product_string.getD (fallbackName d.vendor_id d.product_id)⟩ with hrow
        have hmapapp : (acc ++ [row]).map DiscoveredDevice.id =
            acc.map DiscoveredDevice.id ++ [deviceIdOf hash d] := by
          simp [hrow]
        refine ⟨?_, ?_, ?_, ?_⟩
        · intro hnd
          refine (ih (acc ++ [row])).1 ?_
          rw [hmapapp]
          simp only [List.nodup_append, List.nodup_cons, List.nodup_nil]
          exact ⟨hnd, by simp, by simpa [List.disjoint_singleton] using hnotmem⟩
        · intro i hi
          refine (ih (acc ++ [row])).2.1 i ?_
          rw [hmapapp]
          exact List.mem_append_left _ hi
        · intro d' hd' hd'look
          rcases List.mem_cons.mp hd' with rfl | hmem'
          · refine (ih (acc ++ [row])).2.1 _ ?_
            rw [hmapapp]
            exact List.mem_append_right _ (by simp)
          · exact (ih (acc ++ [row])).2.2.1 d' hmem' hd'look
        · intro i hi
          rcases (ih (acc ++ [row])).2.2.2 i hi with hacc | hds
          · rw [hmapapp] at hacc
            rcases List.mem_append.mp hacc with h | h
            · exact Or.inl h
            · refine Or.inr ?_
              simp only [List.filter_cons, hlook, List.map_cons]
              simp only [List.mem_singleton] at h
              exact h ▸ List.mem_cons_self _ _
          · refine Or.inr ?_
            simp only [List.filter_cons, hlook, List.map_cons]
            exact List.mem_cons_of_mem _ hds
    · have hstep : listDevicesStep hash acc d = acc := by
        simp only [listDevicesStep]
        simp only [Bool.not_eq_true] at hlook
        simp [hlook]
      rw [hstep]
      refine ⟨(ih acc).1, (ih acc).2.1, ?_, ?_⟩
      · intro d' hd' hd'look
        rcases List.mem_cons.mp hd' with rfl | hmem'
        · exact absurd hd'look hlook
        · exact (ih acc).2.2.1 d' hmem' hd'look
      · intro i hi
        rcases (ih acc).2.2.2 i hi with hacc | hds
        · exact Or.inl hacc
        · refine Or.inr ?_
          have : (List.filter looks_like_stream_deck (d :: ds)) =
              List.filter looks_like_stream_deck ds := by
            simp only [List.filter_cons]
            simp only [Bool.not_eq_true] at hlook
            simp [hlook]
          rw [this]
          exact hds

/-- C9: discovery returns pairwise-distinct device ids, every recognized
descriptor's id appears, every returned id comes from a recognized descriptor,
and hence the number of rows equals the number K of distinct ids among the
descriptors passing the recognition filter — one row per physical device,
however many HID interfaces it exposes. -/
theorem discovery_dedup (hash : Nat → Nat → Option (List Char) → Nat)
    (ds : List HidDiscoveredDevice) :
    ((list_devices hash ds).map DiscoveredDevice.id).Nodup ∧
    (∀ d ∈ ds.filter looks_like_stream_deck,
      deviceIdOf hash d ∈ (list_devices hash ds).map DiscoveredDevice.id) ∧
    (∀ i ∈ (list_devices hash ds).map DiscoveredDevice.id,
      i ∈ (ds.filter looks_like_stream_deck).map (deviceIdOf hash)) ∧
    (list_devices hash ds).length =
      ((ds.filter looks_like_stream_deck).map (deviceIdOf hash)).toFinset.card := by
  have hfold := list_devices_fold hash ds []
  have hnd : ((list_devices hash ds).map DiscoveredDevice.id).Nodup :=
    hfold.1 (by simp)
  have hcov : ∀ d ∈ ds.filter looks_like_stream_deck,
      deviceIdOf hash d ∈ (list_devices hash ds).map DiscoveredDevice.id := by
    intro d hd
    have := List.mem_filter.mp hd
    exact hfold.2.2.1 d this.1 this.2
  have hsub : ∀ i ∈ (list_devices hash ds).map DiscoveredDevice.id,
      i ∈ (ds.filter looks_like_stream_deck).map (deviceIdOf hash) := by
    intro i hi
    rcases hfold.2.2.2 i hi with h | h
    · simp at h
    · exact h
  refine ⟨hnd, hcov, hsub, ?_⟩
  have hsetEq : ((list_devices hash ds).map DiscoveredDevice.id).toFinset =
      ((ds.filter looks_like_stream_deck).map (deviceIdOf hash)).toFinset := by
    apply Finset.ext
    intro i
    simp only [List.mem_toFinset]
    constructor
    · exact hsub i
    · intro hi
      obtain ⟨d, hd, rfl⟩ := List.mem_map.mp hi
      exact hcov d hd
  calc (list_devices hash ds).length
      = ((list_devices hash ds).map DiscoveredDevice.id).length := (List.length_map _ _).symm
    _ = ((list_devices hash ds).map DiscoveredDevice.id).toFinset.card :=
        (List.toFinset_card_of_nodup hnd).symm
    _ = ((ds.filter looks_like_stream_deck).map (deviceIdOf hash)).toFinset.card := by
        rw [hsetEq]

/-- C9 witness: two HID interfaces of the same physical device (same identity
triple) collapse to a single discovery row. -/
theorem discovery_dedup_witness :
    (list_devices (fun v p _ => v * 65536 + p)
      [⟨0x0fd9, 0x0060, some ['s'], none, some 0, [0]⟩,
       ⟨0x0fd9, 0x0060, some ['s'], none, some 1, [1]⟩]).length = 1 := by
  have h := (discovery_dedup (fun v p _ => v * 65536 + p)
    [⟨0x0fd9, 0x0060, some ['s'], none, some 0, [0]⟩,
     ⟨0x0fd9, 0x0060, some ['s'], none, some 1, [1]⟩]).2.2.2
  rw [h]
  decide

theorem find?_eq_of_unique {α : Type} (p : α → Bool) :
    ∀ (l : List α) (x : α), x ∈ l → p x = true → (∀ y ∈ l, p y = true → y = x) →
      l.find? p = some x := by
  intro l
  induction l with
  | nil =>
    intro x hx
    simp at hx
  | cons a t ih =>
    intro x hx hpx huniq
    by_cases hpa : p a = true
    · have ha : a = x := huniq a (List.mem_cons_self a t) hpa
      rw [List.find?_cons_of_pos _ hpa, ha]
    · rw [List.find?_cons_of_neg _ (by simpa using hpa)]
      have hxt : x ∈ t := by
        rcases List.mem_cons.mp hx with rfl | h
        · exact absurd hpx hpa
        · exact h
      exact ih x hxt hpx (fun y hy hpy => huniq y (List.mem_cons_of_mem _ hy) hpy)

/-- C3 counterexample: with candidates at interfaces 0, 1, 2 (paths [0], [1],
[2]), the read path resolves to the interface-1 candidate's path [1], not to
the interface-2 (last) candidate's path [2] as claimed. -/
theorem candidate_role_counterexample :
    connectPaths
      [⟨7, [], 0x0080, some 0, [0]⟩, ⟨7, [], 0x0080, some 1, [1]⟩,
       ⟨7, [], 0x0080, some 2, [2]⟩] = some ([0], [1]) ∧
    ([1] : List Nat) ≠ [2] := by
  constructor
  · decide
  · decide

/-- C3 amended: whenever the candidate set holds exactly one interface-0
candidate and exactly one interface-1 candidate (as in the {0,1,2} scenario),
the write path resolves to the interface-0 candidate and the read path to the
interface-1 candidate; and for any single-candidate set (as in the {2}
scenario) both paths resolve to that candidate. -/
theorem candidate_role_selection (l : List Candidate) (c0 c1 : Candidate)
    (h0 : c0 ∈ l) (hi0 : c0.interface_number = some 0)
    (hu0 : ∀ y ∈ l, y.interface_number = some 0 → y = c0)
    (h1 : c1 ∈ l) (hi1 : c1.interface_number = some 1)
    (hu1 : ∀ y ∈ l, y.interface_number = some 1 → y = c1) :
    connectPaths l = some (c0.path, c1.path) ∧
    ∀ c : Candidate, connectPaths [c] = some (c.path, c.path) := by
  constructor
  · have hnil : l ≠ [] := List.ne_nil_of_mem h0
    have hperm : List.Perm (sortCandidates l) l := List.perm_insertionSort _ l
    have hw : (sortCandidates l).find? (fun c => decide (c.interface_number = some 0)) =
        some c0 := by
      refine find?_eq_of_unique _ (sortCandidates l) c0 (hperm.mem_iff.mpr h0)
        (by simp [hi0]) ?_
      intro y hy hpy
      exact hu0 y (hperm.subset hy) (by simpa using hpy)
    have hr : (sortCandidates l).find? (fun c => decide (c.interface_number = some 1)) =
        some c1 := by
      refine find?_eq_of_unique _ (sortCandidates l) c1 (hperm.mem_iff.mpr h1)
        (by simp [hi1]) ?_
      intro y hy hpy
      exact hu1 y (hperm.subset hy) (by simpa using hpy)
    rw [connectPaths, if_neg hnil]
    simp [selectWritePath, selectReadPath, hw, hr, Option.orElse]
  · intro c
    have hsing : sortCandidates [c] = [c] := rfl
    by_cases hp0 : c.interface_number = some 0 <;>
      by_cases hp1 : c.interface_number = some 1 <;>
        simp [connectPaths, hsing, selectWritePath, selectReadPath, List.find?_cons,
          hp0, hp1, Option.orElse]

/-- C3 witness: the amended selection at concrete candidate sets {0,1,2}
(write path [10], read path [11]) and {2} (both paths [12]). -/
theorem candidate_role_witness :
    connectPaths
      [⟨8, [], 0x0080, some 0, [10]⟩, ⟨8, [], 0x0080, some 1, [11]⟩,
       ⟨8, [], 0x0080, some 2, [12]⟩] = some ([10], [11]) ∧
    connectPaths [⟨9, [], 0x0080, some 2, [12]⟩] = some ([12], [12]) := by
  have h := candidate_role_selection
    [⟨8, [], 0x0080, some 0, [10]⟩, ⟨8, [], 0x0080, some 1, [11]⟩,
     ⟨8, [], 0x0080, some 2, [12]⟩]
    ⟨8, [], 0x0080, some 0, [10]⟩ ⟨8, [], 0x0080, some 1, [11]⟩
    (by decide) (by decide) (by decide) (by decide) (by decide) (by decide)
  exact ⟨h.1, h.2 ⟨9, [], 0x0080, some 2, [12]⟩⟩

/-- C4 (code bug evidence): on a plus device (key_count = 8), the 13-byte
extended id-0x01 report with dial 0 newly pressed is consumed by
`parse_key_states_v1` (length 13 ≥ 9), so the session emits no event at all
and the dial snapshot is untouched — even though `emit_plus_events` applied to
the very same report would emit Dial(0) Down; the dial-diff branch is
unreachable from the session dispatch. -/
theorem plus_extended_report_dial_bytes_ignored :
    processReport true 8 ⟨List.replicate 8 false, List.replicate 4 false⟩
        [1, 0, 0, 0, 0, 0, 0, 0, 0, 1, 0, 0, 0] =
      some (⟨List.replicate 8 false, List.replicate 4 false⟩, []) ∧
    emit_plus_events [1, 0, 0, 0, 0, 0, 0, 0, 0, 1, 0, 0, 0] (List.replicate 4 false) =
      ([true, false, false, false],
       [DeviceEvent.control ⟨ControlId.dial 0, ControlEventKind.down⟩]) := by decide
